import Mathlib

/-!
Shallow embedding of the `Unsorted` accumulator from `src/unsorted.rs` of the
rust-stats library, together with the generic `merge_all` combinator and the
two helpers `median_on_sorted` / `mode_on_sorted` from `src/sorted.rs` (the
latter file is not part of the sources at hand, so those two helpers are
modelled from the specification).

The Rust code stores `Vec<Partial<T>>`, where `Partial` is a newtype giving a
total order (and consistent equality) on a partially ordered `T`.  The
embedding therefore works over an element type `α` with a `LinearOrder`: a
value of `Partial<T>` is represented by the value it wraps, and the total
order used by `Vec::sort` is the linear order on `α`.  Machine integers and
`f64` results are modelled by `Nat` and `ℚ`; the `ToPrimitive` conversion of
element values to `f64` is an explicit parameter `f : α → ℚ`.

Methods taking `&mut self` (`sort`, `median`, `mode`) are embedded as
functions returning the result together with the updated state.
-/

set_option maxHeartbeats 1000000
set_option linter.unusedSectionVars false

namespace Stats

/-- State of `Unsorted<T>` (src/unsorted.rs, lines 32-36): the buffered data
`data: Vec<Partial<T>>` and the `sorted` flag. -/
structure Unsorted (α : Type) where
  data : List α
  sorted : Bool

variable {α : Type} [LinearOrder α]

/-- `Unsorted::new` / `Default::default` (lines 40-42 and 94-101): empty
buffer, `sorted` flag set.  The `Vec::with_capacity(1000)` hint has no
semantic content. -/
def Unsorted.new : Unsorted α :=
  { data := [], sorted := true }

/-- `Unsorted::dirtied` (lines 56-58): unset the `sorted` flag. -/
def Unsorted.dirtied (u : Unsorted α) : Unsorted α :=
  { u with sorted := false }

/-- `Unsorted::add` (lines 45-48): `self.dirtied(); self.data.push(Partial(v))`. -/
def Unsorted.add (u : Unsorted α) (v : α) : Unsorted α :=
  { u.dirtied with data := u.dirtied.data ++ [v] }

/-- The stable sort `Vec::sort` on `Vec<Partial<T>>`: with a linear order the
sorted permutation of a list is unique, so any correct sort is extensionally
`insertionSort`. -/
def sortList (l : List α) : List α :=
  l.insertionSort (· ≤ ·)

/-- `Unsorted::sort` (lines 50-54): `if !self.sorted { self.data.sort(); }`.
Note that the source does NOT set `self.sorted = true` afterwards. -/
def Unsorted.sort (u : Unsorted α) : Unsorted α :=
  if !u.sorted then { u with data := sortList u.data } else u

/-- `Unsorted::cardinality` (lines 61-68): insert every buffered value into a
`HashSet` and return its size, i.e. the number of distinct stored values. -/
def Unsorted.cardinality [DecidableEq α] (u : Unsorted α) : Nat :=
  u.data.dedup.length

/-- Run-length encoding of adjacent equal elements, the scan performed by
`mode_on_sorted`. -/
def runs [DecidableEq α] : List α → List (α × Nat)
  | [] => []
  | x :: xs =>
    match runs xs with
    | [] => [(x, 1)]
    | (y, n) :: rest => if x = y then (y, n + 1) :: rest else (x, 1) :: (y, n) :: rest

/-- Selection step of `mode_on_sorted` over the run-length encoding: the run
whose length is the (unique) maximum, if any. -/
def modeAux {β : Type} (rs : List (β × ℕ)) : Option β :=
  match rs.filter fun p => p.2 == (rs.map Prod.snd).foldr max 0 with
  | [p] => some p.1
  | _ => none

/-- Modelled from the spec: `mode_on_sorted` from `src/sorted.rs`, which is not
among the sources at hand.  Per the spec it scans the sorted sequence
computing maximal run-lengths; the single value with the strictly longest
equal-run is the mode, and if the maximal run-length is attained by two or
more distinct values (or the sequence is empty) there is no mode. -/
def mode_on_sorted [DecidableEq α] (xs : List α) : Option α :=
  modeAux (runs xs)

/-- Modelled from the spec: `median_on_sorted` from `src/sorted.rs`, which is
not among the sources at hand.  Per the spec: odd length gives the middle
element's numeric value, even (nonzero) length the average of the two middle
elements' numeric values, the empty sequence gives `none`. -/
def median_on_sorted (f : α → ℚ) (xs : List α) : Option ℚ :=
  if xs.length = 0 then none
  else if xs.length % 2 = 0 then
    match xs[xs.length / 2 - 1]?, xs[xs.length / 2]? with
    | some a, some b => some ((f a + f b) / 2)
    | _, _ => none
  else xs[xs.length / 2]?.map f

/-- `Unsorted::mode` (lines 71-77, `&mut self`): sort, then scan; the
`Partial` unwrapping `.map(|p| p.0.clone())` is the identity here. -/
def Unsorted.mode [DecidableEq α] (u : Unsorted α) : Option α × Unsorted α :=
  (mode_on_sorted u.sort.data, u.sort)

/-- `Unsorted::median` (lines 79-85, `&mut self`): sort, then take the median
of the sorted buffer. -/
def Unsorted.median (f : α → ℚ) (u : Unsorted α) : Option ℚ × Unsorted α :=
  (median_on_sorted f u.sort.data, u.sort)

/-- `Commute::merge` for `Unsorted` (lines 87-92):
`self.dirtied(); self.data.extend(v.data.into_iter());`. -/
def Unsorted.merge (u v : Unsorted α) : Unsorted α :=
  { u.dirtied with data := u.dirtied.data ++ v.data }

/-- `Collection::len` (lines 103-105). -/
def Unsorted.len (u : Unsorted α) : Nat :=
  u.data.length

/-- `Mutable::clear` (lines 107-109): `self.sorted = true; self.data.clear();`. -/
def Unsorted.clear (u : Unsorted α) : Unsorted α :=
  { u with sorted := true, data := [] }

/-- `Extendable::extend` (lines 119-124): `self.dirtied(); self.data.extend(..)`.
Note it dirties unconditionally, even for an empty iterator. -/
def Unsorted.extend (u : Unsorted α) (l : List α) : Unsorted α :=
  { u.dirtied with data := u.dirtied.data ++ l }

/-- `FromIterator::from_iter` (lines 111-117): `new` then `extend`. -/
def Unsorted.ofList (l : List α) : Unsorted α :=
  Unsorted.new.extend l

/-- Top-level `median` on a stream (lines 11-14): collect into `Unsorted`,
then query. -/
def median (f : α → ℚ) (l : List α) : Option ℚ :=
  ((Unsorted.ofList l).median f).1

/-- Top-level `mode` on a stream (lines 21-23). -/
def mode [DecidableEq α] (l : List α) : Option α :=
  ((Unsorted.ofList l).mode).1

/-- Modelled from the spec: the generic `merge_all` combinator (not among the
sources at hand; only its caller `stats_test.rs` is), instantiated at
`Unsorted`: fold a non-empty sequence pairwise by `merge`, and signal "no
data to merge" (`none`) on the empty sequence. -/
def merge_all (us : List (Unsorted α)) : Option (Unsorted α) :=
  match us with
  | [] => none
  | u :: rest => some (rest.foldl Unsorted.merge u)

/-- Well-formedness of an `Unsorted` state: whenever the `sorted` flag is set
the buffer really is sorted.  Every state reachable through the public
operations satisfies this (the flag is set only on the empty buffer). -/
def Unsorted.WF (u : Unsorted α) : Prop :=
  u.sorted = true → u.data.Sorted (· ≤ ·)

instance (u : Unsorted α) : Decidable u.WF := by
  unfold Unsorted.WF; infer_instance

theorem sortList_sorted (l : List α) : (sortList l).Sorted (· ≤ ·) :=
  List.sorted_insertionSort _ l

theorem sortList_perm (l : List α) : (sortList l).Perm l :=
  List.perm_insertionSort _ l

theorem sortList_congr {l₁ l₂ : List α} (h : l₁.Perm l₂) : sortList l₁ = sortList l₂ :=
  List.eq_of_perm_of_sorted ((sortList_perm l₁).trans (h.trans (sortList_perm l₂).symm))
    (sortList_sorted l₁) (sortList_sorted l₂)

theorem sortList_eq_of_sorted {l : List α} (h : l.Sorted (· ≤ ·)) : sortList l = l :=
  h.insertionSort_eq

theorem sortList_idem (l : List α) : sortList (sortList l) = sortList l :=
  sortList_eq_of_sorted (sortList_sorted l)

theorem Unsorted.sort_data_perm (u : Unsorted α) : u.sort.data.Perm u.data := by
  obtain ⟨d, s⟩ := u
  cases s <;> simp [Unsorted.sort, sortList_perm]

theorem Unsorted.sort_flag (u : Unsorted α) : u.sort.sorted = u.sorted := by
  obtain ⟨d, s⟩ := u
  cases s <;> simp [Unsorted.sort]

theorem Unsorted.sort_data_of_wf {u : Unsorted α} (h : u.WF) :
    u.sort.data = sortList u.data := by
  obtain ⟨d, s⟩ := u
  cases s
  · simp [Unsorted.sort]
  · simp [Unsorted.sort, sortList_eq_of_sorted (h rfl)]

theorem Unsorted.sort_idem (u : Unsorted α) : u.sort.sort = u.sort := by
  obtain ⟨d, s⟩ := u
  cases s <;> simp [Unsorted.sort, sortList_idem]

theorem Unsorted.ofList_data (l : List α) : (Unsorted.ofList l).data = l := by
  simp [Unsorted.ofList, Unsorted.extend, Unsorted.dirtied, Unsorted.new]

theorem Unsorted.ofList_flag (l : List α) : (Unsorted.ofList l).sorted = false := rfl

theorem Unsorted.merge_ofList (A B : List α) :
    (Unsorted.ofList A).merge (Unsorted.ofList B) = Unsorted.ofList (A ++ B) := by
  simp [Unsorted.merge, Unsorted.ofList, Unsorted.extend, Unsorted.dirtied, Unsorted.new]

theorem Unsorted.sort_ofList (l : List α) :
    (Unsorted.ofList l).sort = { data := sortList l, sorted := false } := by
  simp [Unsorted.ofList, Unsorted.extend, Unsorted.new, Unsorted.dirtied, Unsorted.sort]

theorem median_ofList_perm {A B : List α} (h : A.Perm B) (f : α → ℚ) :
    ((Unsorted.ofList A).median f).1 = ((Unsorted.ofList B).median f).1 := by
  simp only [Unsorted.median, Unsorted.sort_ofList, sortList_congr h]

theorem mode_ofList_perm [DecidableEq α] {A B : List α} (h : A.Perm B) :
    ((Unsorted.ofList A).mode).1 = ((Unsorted.ofList B).mode).1 := by
  simp only [Unsorted.mode, Unsorted.sort_ofList, sortList_congr h]

theorem cardinality_ofList_perm [DecidableEq α] {A B : List α} (h : A.Perm B) :
    (Unsorted.ofList A).cardinality = (Unsorted.ofList B).cardinality := by
  simp only [Unsorted.cardinality, Unsorted.ofList_data]
  exact h.dedup.length_eq

theorem foldl_merge_ofList (L : List α) (Ls : List (List α)) :
    (Ls.map Unsorted.ofList).foldl Unsorted.merge (Unsorted.ofList L) =
      Unsorted.ofList (L ++ Ls.flatten) := by
  induction Ls generalizing L with
  | nil => simp
  | cons M rest ih => simp [Unsorted.merge_ofList, ih, List.append_assoc]

/-- C5: for every `Unsorted` accumulator `u` and every other accumulator `v`,
`u.merge(v)` appends `v`'s buffer to the end of `u`'s buffer and unsets the
`sorted` flag, and does nothing else: `u`'s existing elements and their order
are unchanged (the merged buffer is literally `u.data ++ v.data`), and no
sort is performed during the merge. -/
theorem merge_frame {β : Type} [LinearOrder β] (u v : Unsorted β) :
    (u.merge v).data = u.data ++ v.data ∧ (u.merge v).sorted = false :=
  ⟨rfl, rfl⟩

/-- C8: `cardinality` returns the number of distinct values currently stored
in the buffer; on an accumulator built from a sequence `l`, that is the
number of distinct values of `l`. -/
theorem cardinality_distinct_count {β : Type} [LinearOrder β] [DecidableEq β] :
    (∀ u : Unsorted β, u.cardinality = u.data.toFinset.card)
    ∧ (∀ l : List β, (Unsorted.ofList l).cardinality = l.toFinset.card) := by
  constructor
  · intro u
    exact (List.card_toFinset u.data).symm
  · intro l
    rw [show (Unsorted.ofList l).cardinality = l.dedup.length from
      congrArg (List.length ∘ List.dedup) (Unsorted.ofList_data l)]
    exact (List.card_toFinset l).symm

/-- C9: `clear` resets the accumulator to the empty state: afterwards the
buffer is empty, the `sorted` flag is set, the state equals a freshly created
accumulator, and the queries behave as on a fresh one (`median` and `mode`
return `none`, `cardinality` returns `0`). -/
theorem clear_resets {β : Type} [LinearOrder β] [DecidableEq β]
    (u : Unsorted β) (f : β → ℚ) :
    u.clear = Unsorted.new
    ∧ u.clear.data = [] ∧ u.clear.sorted = true
    ∧ (u.clear.median f).1 = none ∧ (u.clear.mode).1 = none
    ∧ u.clear.cardinality = 0 :=
  ⟨rfl, rfl, rfl, rfl, rfl, rfl⟩

/-- C10: queries never change the stored contents: `median` and `mode` leave
the buffer a permutation of what it was (they at most sort it), and
`cardinality` takes the state by shared reference and returns only a number,
so it cannot mutate at all. -/
theorem queries_preserve_multiset {β : Type} [LinearOrder β] [DecidableEq β]
    (u : Unsorted β) (f : β → ℚ) :
    ((u.median f).2).data.Perm u.data ∧ ((u.mode).2).data.Perm u.data :=
  ⟨u.sort_data_perm, u.sort_data_perm⟩

/-- C6: query idempotence: a second `median` or `mode` query with no mutation
in between returns the same result as the first and leaves the state (in
particular the already-sorted buffer) unchanged, in any combination of the
two queries. -/
theorem query_idempotent {β : Type} [LinearOrder β] [DecidableEq β]
    (u : Unsorted β) (f : β → ℚ) :
    ((u.median f).2.median f).1 = (u.median f).1
    ∧ ((u.median f).2.median f).2 = (u.median f).2
    ∧ ((u.mode).2.mode).1 = (u.mode).1
    ∧ ((u.mode).2.mode).2 = (u.mode).2
    ∧ ((u.median f).2.mode).2 = (u.median f).2
    ∧ ((u.mode).2.median f).2 = (u.mode).2 := by
  simp [Unsorted.median, Unsorted.mode, Unsorted.sort_idem]

/-- C4: evaluation of the code at the failing input `[2, 1]`: after a `mode`
query the buffer has been sorted to `[1, 2]`, yet the `sorted` flag is still
`false` (`Unsorted::sort` never sets it), so a second query sorts the buffer
again; meanwhile the flag is `true` on a freshly created accumulator even
though no sort has run.  The sort is therefore not memoized as claimed. -/
theorem sort_flag_not_memoized :
    (((Unsorted.ofList [(2 : ℤ), 1]).mode).2).data = [1, 2]
    ∧ (((Unsorted.ofList [(2 : ℤ), 1]).mode).2).sorted = false
    ∧ (Unsorted.new : Unsorted ℤ).sorted = true := by
  decide

/-- C1: building an `Unsorted` accumulator from `A` and merging it with one
built from `B` yields an accumulator whose `median`, `mode` and `cardinality`
query results equal those of an accumulator built directly from the
concatenation, in either concatenation order. -/
theorem merge_queries_eq_concat {β : Type} [LinearOrder β] [DecidableEq β]
    (A B : List β) (f : β → ℚ) :
    ((((Unsorted.ofList A).merge (Unsorted.ofList B)).median f).1 =
        ((Unsorted.ofList (A ++ B)).median f).1
      ∧ (((Unsorted.ofList A).merge (Unsorted.ofList B)).median f).1 =
        ((Unsorted.ofList (B ++ A)).median f).1)
    ∧ ((((Unsorted.ofList A).merge (Unsorted.ofList B)).mode).1 =
        ((Unsorted.ofList (A ++ B)).mode).1
      ∧ (((Unsorted.ofList A).merge (Unsorted.ofList B)).mode).1 =
        ((Unsorted.ofList (B ++ A)).mode).1)
    ∧ (((Unsorted.ofList A).merge (Unsorted.ofList B)).cardinality =
        (Unsorted.ofList (A ++ B)).cardinality
      ∧ ((Unsorted.ofList A).merge (Unsorted.ofList B)).cardinality =
        (Unsorted.ofList (B ++ A)).cardinality) := by
  rw [Unsorted.merge_ofList]
  exact ⟨⟨rfl, median_ofList_perm List.perm_append_comm f⟩,
    ⟨rfl, mode_ofList_perm List.perm_append_comm⟩,
    ⟨rfl, cardinality_ofList_perm List.perm_append_comm⟩⟩

/-- C7: `merge_all` over a non-empty sequence of accumulators built from the
lists `Ls` equals the accumulator built over the full concatenated input;
over a one-element sequence `[S]` it returns exactly `S`; over the empty
sequence it returns `none` ("no data to merge") rather than an empty
accumulator. -/
theorem merge_all_spec {β : Type} [LinearOrder β] :
    (∀ Ls : List (List β), Ls ≠ [] →
      merge_all (Ls.map Unsorted.ofList) = some (Unsorted.ofList Ls.flatten))
    ∧ (∀ u : Unsorted β, merge_all [u] = some u)
    ∧ merge_all ([] : List (Unsorted β)) = none := by
  refine ⟨?_, fun u => rfl, rfl⟩
  intro Ls h
  match Ls with
  | [] => exact absurd rfl h
  | L :: rest => simp [merge_all, foldl_merge_ofList]

/-- Witness for C7: `merge_all` over accumulators built from `[1, 2]` and
`[3]` equals the accumulator built from `[1, 2, 3]`. -/
theorem merge_all_spec_witness :
    merge_all ([[(1 : ℤ), 2], [3]].map Unsorted.ofList) =
      some (Unsorted.ofList ([[(1 : ℤ), 2], [3]].flatten)) :=
  merge_all_spec.1 [[1, 2], [3]] (by decide)

/-- C2: under the reachable-state invariant, `median` returns the middle
element of the sorted buffer (converted by `f`) for odd length, the average
of the two middle elements for even nonzero length, and `none` for the empty
buffer; in particular the median of `[3, 5, 7, 9]` is `6` and the median of
`[3, 5, 7]` is `5`. -/
theorem median_spec :
    (∀ (β : Type) [LinearOrder β] (f : β → ℚ) (u : Unsorted β), u.WF → u.data = [] →
      (u.median f).1 = none)
    ∧ (∀ (β : Type) [LinearOrder β] (f : β → ℚ) (u : Unsorted β), u.WF →
      u.data.length % 2 = 1 →
      ∃ a, (sortList u.data)[u.data.length / 2]? = some a ∧ (u.median f).1 = some (f a))
    ∧ (∀ (β : Type) [LinearOrder β] (f : β → ℚ) (u : Unsorted β), u.WF →
      u.data ≠ [] → u.data.length % 2 = 0 →
      ∃ a b, (sortList u.data)[u.data.length / 2 - 1]? = some a
        ∧ (sortList u.data)[u.data.length / 2]? = some b
        ∧ (u.median f).1 = some ((f a + f b) / 2))
    ∧ median id [(3 : ℚ), 5, 7, 9] = some 6
    ∧ median id [(3 : ℚ), 5, 7] = some 5 := by
  refine ⟨?_, ?_, ?_, ?_, ?_⟩
  · intro β _ f u hwf hnil
    simp [Unsorted.median, Unsorted.sort_data_of_wf hwf, hnil, sortList, median_on_sorted]
  · intro β _ f u hwf hodd
    have hlen : (sortList u.data).length = u.data.length := (sortList_perm u.data).length_eq
    have hlt : u.data.length / 2 < (sortList u.data).length := by
      rw [hlen]; exact Nat.div_lt_self (by omega) (by omega)
    refine ⟨(sortList u.data).get ⟨u.data.length / 2, hlt⟩, ?_, ?_⟩
    · rw [List.getElem?_eq_getElem hlt]; rfl
    · have h0 : ¬u.data.length = 0 := by omega
      have h2 : ¬u.data.length % 2 = 0 := by omega
      simp only [Unsorted.median, Unsorted.sort_data_of_wf hwf, median_on_sorted,
        hlen, if_neg h0, if_neg h2, List.getElem?_eq_getElem hlt]
      rfl
  · intro β _ f u hwf hne h2
    have hpos : 0 < u.data.length := List.length_pos.mpr hne
    have hlen : (sortList u.data).length = u.data.length := (sortList_perm u.data).length_eq
    have hlt : u.data.length / 2 < (sortList u.data).length := by
      rw [hlen]; exact Nat.div_lt_self (by omega) (by omega)
    have hlt' : u.data.length / 2 - 1 < (sortList u.data).length := by omega
    refine ⟨(sortList u.data).get ⟨u.data.length / 2 - 1, hlt'⟩,
      (sortList u.data).get ⟨u.data.length / 2, hlt⟩, ?_, ?_, ?_⟩
    · rw [List.getElem?_eq_getElem hlt']; rfl
    · rw [List.getElem?_eq_getElem hlt]; rfl
    · have h0 : ¬u.data.length = 0 := by omega
      simp only [Unsorted.median, Unsorted.sort_data_of_wf hwf, median_on_sorted,
        hlen, if_neg h0, if_pos h2, List.getElem?_eq_getElem hlt,
        List.getElem?_eq_getElem hlt']
      rfl
  · have hs : sortList [(3 : ℚ), 5, 7, 9] = [3, 5, 7, 9] := by decide
    simp only [median, Unsorted.median, Unsorted.sort_ofList, hs]
    norm_num [median_on_sorted]
  · have hs : sortList [(3 : ℚ), 5, 7] = [3, 5, 7] := by decide
    simp only [median, Unsorted.median, Unsorted.sort_ofList, hs]
    norm_num [median_on_sorted]

/-- Witness for C2: the accumulator built from `[3, 5, 7]` has a stored
sequence of odd length, and its `median` query returns the middle element of
the sorted buffer. -/
theorem median_spec_witness :
    ∃ a, (sortList (Unsorted.ofList [(3 : ℚ), 5, 7]).data)[(Unsorted.ofList
        [(3 : ℚ), 5, 7]).data.length / 2]? = some a
      ∧ ((Unsorted.ofList [(3 : ℚ), 5, 7]).median id).1 = some (id a) :=
  median_spec.2.1 ℚ id (Unsorted.ofList [3, 5, 7]) (by decide) (by decide)

theorem runs_cons [DecidableEq α] (x : α) (t : List α) :
    runs (x :: t) =
      match runs t with
      | [] => [(x, 1)]
      | (y, n) :: rest => if x = y then (y, n + 1) :: rest else (x, 1) :: (y, n) :: rest :=
  rfl

theorem runs_eq_nil_iff [DecidableEq α] {xs : List α} : runs xs = [] ↔ xs = [] := by
  constructor
  · intro h
    cases xs with
    | nil => rfl
    | cons x t =>
      exfalso
      rw [runs_cons] at h
      rcases ht : runs t with _ | ⟨⟨y, n⟩, rest⟩ <;> rw [ht] at h
      · simp at h
      · by_cases hxy : x = y <;> simp [hxy] at h
  · intro h
    subst h
    rfl

theorem runs_cons_of_eq [DecidableEq α] {t : List α} {x : α} {n : ℕ} {rest : List (α × ℕ)}
    (h : runs t = (x, n) :: rest) : runs (x :: t) = (x, n + 1) :: rest := by
  rw [runs_cons, h]
  simp

theorem runs_cons_of_ne [DecidableEq α] {t : List α} {x y : α} {n : ℕ} {rest : List (α × ℕ)}
    (h : runs t = (y, n) :: rest) (hxy : x ≠ y) :
    runs (x :: t) = (x, 1) :: (y, n) :: rest := by
  rw [runs_cons, h]
  simp [hxy]

theorem runs_head [DecidableEq α] (x : α) (t : List α) :
    ∃ n rest, runs (x :: t) = (x, n) :: rest := by
  rcases ht : runs t with _ | ⟨⟨y, n⟩, rest⟩
  · refine ⟨1, [], ?_⟩
    rw [runs_cons, ht]
  · by_cases hxy : x = y
    · subst hxy
      exact ⟨n + 1, rest, runs_cons_of_eq ht⟩
    · exact ⟨1, (y, n) :: rest, runs_cons_of_ne ht hxy⟩

theorem runs_sorted_eq [DecidableEq α] :
    ∀ {xs : List α}, xs.Sorted (· ≤ ·) →
      runs xs = xs.dedup.map fun v => (v, xs.count v)
  | [], _ => rfl
  | x :: t, hs => by
    have hst : t.Sorted (· ≤ ·) := hs.of_cons
    have hx : ∀ b ∈ t, x ≤ b := (List.sorted_cons.mp hs).1
    have iht : runs t = t.dedup.map fun v => (v, t.count v) := runs_sorted_eq hst
    by_cases hmem : x ∈ t
    · -- the head is repeated: `t` must itself start with `x`
      obtain ⟨z, t', rfl⟩ : ∃ z t', t = z :: t' := by
        cases t with
        | nil => exact absurd hmem (by simp)
        | cons z t' => exact ⟨z, t', rfl⟩
      have hzx : z = x := by
        have h1 : x ≤ z := hx z (by simp)
        have h2 : z ≤ x := by
          rcases List.mem_cons.mp hmem with h | h
          · exact le_of_eq h.symm
          · exact (List.sorted_cons.mp hst).1 x h
        exact le_antisymm h2 h1
      subst hzx
      obtain ⟨n, rest, hr⟩ := runs_head z t'
      have hmap : (z, n) :: rest = (z :: t').dedup.map fun v => (v, (z :: t').count v) :=
        hr ▸ iht
      rcases hd : (z :: t').dedup with _ | ⟨w, ws⟩ <;> rw [hd] at hmap
      · simp at hmap
      · simp only [List.map_cons, List.cons.injEq, Prod.mk.injEq] at hmap
        obtain ⟨⟨hwz, hn⟩, hrest⟩ := hmap
        subst hwz
        have hws : z ∉ ws := by
          have := List.nodup_dedup (z :: t')
          rw [hd, List.nodup_cons] at this
          exact this.1
        rw [runs_cons_of_eq hr, List.dedup_cons_of_mem hmem, hd, List.map_cons]
        have h1 : ((z, n + 1) : α × ℕ) = (z, List.count z (z :: z :: t')) := by
          rw [List.count_cons_self, ← hn]
        have h2 : rest = List.map (fun v => (v, List.count v (z :: z :: t'))) ws := by
          rw [hrest]
          refine List.map_congr_left fun v hv => ?_
          have hvz : v ≠ z := fun h => hws (h ▸ hv)
          simp [List.count_cons_of_ne hvz]
        rw [← h1, ← h2]
    · -- the head is fresh
      rw [List.dedup_cons_of_not_mem hmem, List.map_cons, List.count_cons_self]
      have hcnt0 : t.count x = 0 := List.count_eq_zero.mpr hmem
      have hmapeq : (t.dedup.map fun v => (v, (x :: t).count v)) =
          t.dedup.map fun v => (v, t.count v) := by
        refine List.map_congr_left fun v hv => ?_
        have hvx : v ≠ x := fun h => hmem (h ▸ List.mem_dedup.mp hv)
        rw [List.count_cons_of_ne hvx]
      rcases ht : runs t with _ | ⟨⟨y, n⟩, rest⟩
      · have : t = [] := runs_eq_nil_iff.mp ht
        subst this
        rfl
      · have hyt : y ∈ t := by
          obtain ⟨z, t', rfl⟩ : ∃ z t', t = z :: t' := by
            cases t with
            | nil => simp [runs] at ht
            | cons z t' => exact ⟨z, t', rfl⟩
          obtain ⟨m, rest', hr'⟩ := runs_head z t'
          rw [hr'] at ht
          have hzy : z = y := by
            have := (List.cons.injEq .. ▸ ht).1
            exact (Prod.mk.injEq .. ▸ this).1
          exact hzy ▸ List.mem_cons_self z t'
        have hxy : x ≠ y := fun h => hmem (h ▸ hyt)
        rw [runs_cons_of_ne ht hxy, hmapeq, ← iht, ht, hcnt0]

theorem foldr_max_mem : ∀ l : List ℕ, l ≠ [] → l.foldr max 0 ∈ l
  | [], h => absurd rfl h
  | [a], _ => by simp
  | a :: b :: t, _ => by
    have ih := foldr_max_mem (b :: t) (by simp)
    rcases max_choice a ((b :: t).foldr max 0) with h | h <;>
      simp only [List.foldr_cons] at *
    · rw [h]
      exact List.mem_cons_self _ _
    · rw [h]
      exact List.mem_cons_of_mem _ ih

theorem le_foldr_max {l : List ℕ} {a : ℕ} (h : a ∈ l) : a ≤ l.foldr max 0 := by
  induction l with
  | nil => simp at h
  | cons x t ih =>
    rcases List.mem_cons.mp h with h | h
    · subst h
      exact le_max_left _ _
    · exact le_trans (ih h) (le_max_right _ _)

theorem modeAux_map [DecidableEq α] (D : List α) (c : α → ℕ) :
    modeAux (D.map fun v => (v, c v)) =
      match D.filter fun w => c w == (D.map c).foldr max 0 with
      | [w] => some w
      | _ => none := by
  unfold modeAux
  rw [List.filter_map, List.map_map]
  have hc : (Prod.snd ∘ fun v => (v, c v)) = c := rfl
  have hp : ((fun p : α × ℕ => p.2 == (D.map c).foldr max 0) ∘ fun v => (v, c v)) =
      fun w => c w == (D.map c).foldr max 0 := rfl
  rw [hc, hp]
  generalize D.filter (fun w => c w == (D.map c).foldr max 0) = Q
  cases Q with
  | nil => rfl
  | cons a Q' =>
    cases Q' with
    | nil => rfl
    | cons b t => rfl

theorem mode_filter_form [DecidableEq α] {xs : List α} (hs : xs.Sorted (· ≤ ·)) :
    mode_on_sorted xs =
      match xs.dedup.filter fun w =>
          xs.count w == (xs.dedup.map fun w => xs.count w).foldr max 0 with
      | [w] => some w
      | _ => none := by
  unfold mode_on_sorted
  rw [runs_sorted_eq hs]
  exact modeAux_map _ _

theorem mode_on_sorted_eq_some_iff [DecidableEq α] {xs : List α}
    (hs : xs.Sorted (· ≤ ·)) (v : α) :
    mode_on_sorted xs = some v ↔
      v ∈ xs ∧ ∀ w ∈ xs, w ≠ v → xs.count w < xs.count v := by
  have hble : ∀ w ∈ xs.dedup,
      xs.count w ≤ (xs.dedup.map fun w => xs.count w).foldr max 0 :=
    fun w hw => le_foldr_max (List.mem_map_of_mem _ hw)
  have hsub : ∀ z : α,
      (z ∈ xs ∧ ∀ w ∈ xs, w ≠ z → xs.count w < xs.count z) →
      z ∈ (xs.dedup.filter fun w =>
          xs.count w == (xs.dedup.map fun w => xs.count w).foldr max 0)
      ∧ ∀ w ∈ (xs.dedup.filter fun w =>
          xs.count w == (xs.dedup.map fun w => xs.count w).foldr max 0), w = z := by
    rintro z ⟨hzmem, hmax⟩
    have hzD : z ∈ xs.dedup := List.mem_dedup.mpr hzmem
    have hzle := hble z hzD
    have hDne : (xs.dedup.map fun w => xs.count w) ≠ [] := by
      cases hD : xs.dedup with
      | nil =>
        rw [hD] at hzD
        exact absurd hzD (List.not_mem_nil z)
      | cons d ds =>
        simp
    obtain ⟨u, huD, hcu⟩ := List.mem_map.mp (foldr_max_mem _ hDne)
    have huz : u = z := by
      by_contra hne
      have hlt : xs.count u < xs.count z := hmax u (List.mem_dedup.mp huD) hne
      omega
    have hczm : xs.count z = (xs.dedup.map fun w => xs.count w).foldr max 0 :=
      huz ▸ hcu
    constructor
    · exact List.mem_filter.mpr ⟨hzD, by simp [hczm]⟩
    · intro w hw
      obtain ⟨hwD, hwm⟩ := List.mem_filter.mp hw
      by_contra hne
      have hlt : xs.count w < xs.count z := hmax w (List.mem_dedup.mp hwD) hne
      rw [beq_iff_eq] at hwm
      omega
  have hnodup : (xs.dedup.filter fun w =>
      xs.count w == (xs.dedup.map fun w => xs.count w).foldr max 0).Nodup :=
    List.Nodup.filter _ (List.nodup_dedup xs)
  rw [mode_filter_form hs]
  rcases hP : xs.dedup.filter fun w =>
      xs.count w == (xs.dedup.map fun w => xs.count w).foldr max 0
    with _ | ⟨a, _ | ⟨b, t⟩⟩
  · show (none : Option α) = some v ↔ _
    constructor
    · intro h
      exact absurd h (by simp)
    · intro hv
      obtain ⟨hmem, _⟩ := hsub v hv
      rw [hP] at hmem
      exact absurd hmem (List.not_mem_nil v)
  · show some a = some v ↔ _
    rw [Option.some.injEq]
    constructor
    · rintro rfl
      have haf : a ∈ xs.dedup.filter fun w =>
          xs.count w == (xs.dedup.map fun w => xs.count w).foldr max 0 := by
        rw [hP]
        exact List.mem_cons_self a []
      obtain ⟨haD, ham⟩ := List.mem_filter.mp haf
      rw [beq_iff_eq] at ham
      refine ⟨List.mem_dedup.mp haD, fun w hw hne => ?_⟩
      have hwD : w ∈ xs.dedup := List.mem_dedup.mpr hw
      have hwle := hble w hwD
      have hwm : xs.count w ≠ (xs.dedup.map fun w => xs.count w).foldr max 0 := by
        intro heq
        have : w ∈ xs.dedup.filter fun w =>
            xs.count w == (xs.dedup.map fun w => xs.count w).foldr max 0 :=
          List.mem_filter.mpr ⟨hwD, by simp [heq]⟩
        rw [hP] at this
        rw [List.mem_singleton] at this
        exact hne this
      omega
    · intro hv
      obtain ⟨_, hall⟩ := hsub v hv
      have haf : a ∈ xs.dedup.filter fun w =>
          xs.count w == (xs.dedup.map fun w => xs.count w).foldr max 0 := by
        rw [hP]
        exact List.mem_cons_self a []
      exact hall a haf
  · show (none : Option α) = some v ↔ _
    rw [hP] at hnodup
    rw [List.nodup_cons] at hnodup
    have hab : a ≠ b := fun h => hnodup.1 (h ▸ List.mem_cons_self b t)
    constructor
    · intro h
      exact absurd h (by simp)
    · intro hv
      obtain ⟨_, hall⟩ := hsub v hv
      have ha : a = v := hall a (by rw [hP]; exact List.mem_cons_self _ _)
      have hb : b = v := hall b (by rw [hP]; exact List.mem_cons_of_mem _ (List.mem_cons_self _ _))
      exact absurd (ha.trans hb.symm) hab

/-- C3: under the reachable-state invariant, `mode` returns `some v` exactly
when `v` is stored and occurs strictly more often in the buffer than every
other stored value (equivalently, its equal-run in the sorted buffer is
strictly longest); the empty buffer gives `none`, a tie for the maximal
count gives `none`; with the spec's concrete examples. -/
theorem mode_spec :
    (∀ (β : Type) [LinearOrder β] [DecidableEq β] (u : Unsorted β) (v : β), u.WF →
      ((u.mode).1 = some v ↔
        v ∈ u.data ∧ ∀ w ∈ u.data, w ≠ v → u.data.count w < u.data.count v))
    ∧ (∀ (β : Type) [LinearOrder β] [DecidableEq β] (u : Unsorted β), u.WF →
      u.data = [] → (u.mode).1 = none)
    ∧ (∀ (β : Type) [LinearOrder β] [DecidableEq β] (u : Unsorted β) (v w : β), u.WF →
      v ∈ u.data → w ∈ u.data → v ≠ w → u.data.count v = u.data.count w →
      (∀ z ∈ u.data, u.data.count z ≤ u.data.count v) →
      (u.mode).1 = none)
    ∧ mode [(3 : ℤ), 5, 7, 9] = none
    ∧ mode [(3 : ℤ), 3, 3, 3] = some 3
    ∧ mode [(3 : ℤ), 3, 3, 4] = some 3
    ∧ mode [(1 : ℤ), 1, 2, 3, 3] = none := by
  have main : ∀ (β : Type) [LinearOrder β] [DecidableEq β] (u : Unsorted β) (v : β),
      u.WF → ((u.mode).1 = some v ↔
        v ∈ u.data ∧ ∀ w ∈ u.data, w ≠ v → u.data.count w < u.data.count v) := by
    intro β _ _ u v hwf
    have hperm : (sortList u.data).Perm u.data := sortList_perm u.data
    simp only [Unsorted.mode, Unsorted.sort_data_of_wf hwf]
    rw [mode_on_sorted_eq_some_iff (sortList_sorted u.data) v]
    simp only [hperm.mem_iff, hperm.count_eq]
  refine ⟨main, ?_, ?_, by decide, by decide, by decide, by decide⟩
  · intro β _ _ u hwf hnil
    simp only [Unsorted.mode, Unsorted.sort_data_of_wf hwf, hnil]
    rfl
  · intro β _ _ u v w hwf hv hw hvw hcnt hall
    rcases ho : (u.mode).1 with _ | z
    · rfl
    · exfalso
      obtain ⟨hzmem, hzmax⟩ := (main β u z hwf).mp ho
      by_cases hvz : v = z
      · have hwz : w ≠ z := fun h => hvw (hvz.trans h.symm)
        have h1 := hzmax w hw hwz
        have h2 := hall z hzmem
        rw [← hvz] at h1
        omega
      · have h1 := hzmax v hv hvz
        have h2 := hall z hzmem
        omega

/-- Witness for C3: on the accumulator built from `[3, 3, 3, 4]`, the value
`3` satisfies the strict-majority condition and `mode` returns `some 3`. -/
theorem mode_spec_witness :
    ((Unsorted.ofList [(3 : ℤ), 3, 3, 4]).mode).1 = some 3 :=
  (mode_spec.1 ℤ (Unsorted.ofList [3, 3, 3, 4]) 3 (by decide)).mpr (by decide)

end Stats
